import Mathlib

attribute [local semireducible] Rat.add Rat.sub Rat.mul Rat.inv

/-!
Verification of the karaoke pitch-tracking backend (backend/main.py).

The Python floats of the source are modelled as exact rationals; the
records produced by the code become Lean structures with the same field
names; a Python function that can raise an exception returns an Option,
with none standing for the raised exception.
-/

/-- A timestamped pitch sample (model PitchPoint, and the per-point dicts
produced by detect_pitch_from_audio); pitch is absent for unvoiced frames. -/
structure PitchPoint where
  timestamp : ℚ
  pitch : Option ℚ
  deriving DecidableEq

/-- The comparison record built by compare_pitches (model PitchComparison,
lines 50-54, and the dict literal at lines 133-138 of backend/main.py). -/
structure PitchComparison where
  timestamp : ℚ
  reference_pitch : Option ℚ
  user_pitch : Option ℚ
  deviation_percentage : Option ℚ
  deriving DecidableEq

/-- The exact field names of the PitchComparison model and of the dict
literal appended by compare_pitches (backend/main.py lines 133-138). -/
def pitchComparisonFields : List String :=
  ["timestamp", "reference_pitch", "user_pitch", "deviation_percentage"]

/-- Python dict update: replace the value of an existing key in place,
else append the new key at the end (insertion order is preserved). -/
def dictInsert : List (ℚ × Option ℚ) → ℚ → Option ℚ → List (ℚ × Option ℚ)
  | [], k, v => [(k, v)]
  | kv :: m, k, v => if kv.1 = k then (k, v) :: m else kv :: dictInsert m k v

/-- The dict comprehension ref_map at line 114: a mapping of reference
pitches by timestamp, in insertion order. -/
def buildRefMap (reference : List PitchPoint) : List (ℚ × Option ℚ) :=
  reference.foldl (fun m p => dictInsert m p.timestamp p.pitch) []

/-- Python dict lookup ref_map[k]: the value of the first (unique) pair
holding key k, none when the key is absent (a KeyError). -/
def dictGet : List (ℚ × Option ℚ) → ℚ → Option (Option ℚ)
  | [], _ => none
  | kv :: m, k => if kv.1 = k then some kv.2 else dictGet m k

/-- One step of Python min(keys, key=lambda t: abs(t - adjusted)): keep the
current best and replace it only when the new key is strictly closer. -/
def pickCloser (adjusted best u : ℚ) : ℚ :=
  if |u - adjusted| < |best - adjusted| then u else best

/-- Python min(keys, key=lambda t: abs(t - adjusted)) over the dict keys in
insertion order (line 121): the first element of smallest distance, none on
an empty key list (where Python raises ValueError). -/
def minAbsDist (adjusted : ℚ) : List ℚ → Option ℚ
  | [] => none
  | t :: ts => some (ts.foldl (pickCloser adjusted) t)

/-- The body of the loop of compare_pitches (lines 116-138) for one user
point: outer none models a raised exception; some none models a user sample
dropped because no reference timestamp lies within the 50 ms tolerance. -/
def compareOne (ref_map : List (ℚ × Option ℚ)) (time_offset : ℚ)
    (user_point : PitchPoint) : Option (Option PitchComparison) :=
  match minAbsDist (user_point.timestamp + time_offset) (ref_map.map Prod.fst) with
  | none => none
  | some closest_ref_time =>
    if |closest_ref_time - (user_point.timestamp + time_offset)| < 1 / 20 then
      match dictGet ref_map closest_ref_time with
      | none => none
      | some ref_pitch =>
        some (some ⟨user_point.timestamp + time_offset, ref_pitch, user_point.pitch,
          match ref_pitch, user_point.pitch with
          | some r, some u => if 0 < r then some (|u - r| / r * 100) else none
          | _, _ => none⟩)
    else some none

/-- The loop of compare_pitches over the user points, accumulating the
comparisons list; any raised exception aborts the whole call. -/
def comparePitchesAux (ref_map : List (ℚ × Option ℚ)) (time_offset : ℚ) :
    List PitchPoint → Option (List PitchComparison)
  | [] => some []
  | p :: ps =>
    match compareOne ref_map time_offset p with
    | none => none
    | some o =>
      match comparePitchesAux ref_map time_offset ps with
      | none => none
      | some rest =>
        some (match o with
              | none => rest
              | some c => c :: rest)

/-- compare_pitches (backend/main.py lines 109-140). -/
def compare_pitches (reference user : List PitchPoint) (time_offset : ℚ) :
    Option (List PitchComparison) :=
  comparePitchesAux (buildRefMap reference) time_offset user

/-- A problem section as built by find_problem_sections (lines 150-154). -/
structure ProblemSection where
  start_time : ℚ
  end_time : ℚ
  avg_deviation : ℚ
  deriving DecidableEq

/-- Closing the current section (lines 160-165 and 167-169 of
backend/main.py): the section is appended only when it lasts strictly
longer than 0.5 seconds, and the current section is reset. -/
def closeSection (acc : List ProblemSection × Option ProblemSection) :
    List ProblemSection :=
  match acc.2 with
  | some s => if s.end_time - s.start_time > 1 / 2 then acc.1 ++ [s] else acc.1
  | none => acc.1

/-- One iteration of the loop of find_problem_sections (lines 147-165):
a deviation strictly above the threshold opens or extends the current
section (folding the running average as (old + new) / 2); any other
comparison closes it. -/
def sectionStep (threshold : ℚ)
    (acc : List ProblemSection × Option ProblemSection)
    (comp : PitchComparison) : List ProblemSection × Option ProblemSection :=
  match comp.deviation_percentage with
  | some d =>
    if d > threshold then
      match acc.2 with
      | none => (acc.1, some ⟨comp.timestamp, comp.timestamp, d⟩)
      | some s => (acc.1, some ⟨s.start_time, comp.timestamp, (s.avg_deviation + d) / 2⟩)
    else (closeSection acc, none)
  | none => (closeSection acc, none)

/-- find_problem_sections (backend/main.py lines 142-171). -/
def find_problem_sections (comparisons : List PitchComparison)
    (threshold : ℚ) : List ProblemSection :=
  closeSection (comparisons.foldl (sectionStep threshold) ([], none))

/-- Session state of the websocket endpoint (lines 192-196): the pending
audio buffer and the current time offset. -/
structure SessionState where
  audio_buffer : List ℚ
  current_time_offset : ℚ
  deriving DecidableEq

/-- samples_per_buffer = int(SAMPLE_RATE * buffer_duration) (line 195). -/
def samples_per_buffer : ℕ := 44100

/-- buffer_duration = 1.0 second (line 194). -/
def buffer_duration : ℚ := 1

/-- An inbound websocket message, after decoding: malformed stands for any
payload whose decoding raises (undecodable JSON, missing field, bad
base64); unknown is a well-formed message with an unrecognized type. -/
inductive InMsg where
  | audio_chunk (samples : List ℚ)
  | song_position (position : ℚ)
  | end_performance
  | unknown (t : String)
  | malformed
  deriving DecidableEq

/-- An outbound websocket message of the endpoint (lines 229-234, 249-252). -/
inductive OutMsg where
  | pitch_update (user_pitch : List PitchPoint)
      (comparisons : List PitchComparison) (time_offset : ℚ)
  | performance_complete
  deriving DecidableEq

/-- One iteration of the websocket receive loop (backend/main.py lines
198-252), parametrized by the pitch detector (librosa pyin is outside the
model) and the loaded reference curve. none models the session ending
through the generic exception handler (lines 257-259); otherwise the new
session state and the messages sent during the iteration are returned. -/
def step (detect : List ℚ → List PitchPoint) (reference : List PitchPoint)
    (st : SessionState) : InMsg → Option (SessionState × List OutMsg)
  | InMsg.audio_chunk samples =>
    if samples_per_buffer ≤ (st.audio_buffer ++ samples).length then
      match compare_pitches reference
          (detect ((st.audio_buffer ++ samples).take samples_per_buffer))
          st.current_time_offset with
      | none => none
      | some comparisons =>
        some (⟨(st.audio_buffer ++ samples).drop samples_per_buffer,
               st.current_time_offset + buffer_duration⟩,
              [OutMsg.pitch_update
                 (detect ((st.audio_buffer ++ samples).take samples_per_buffer))
                 comparisons st.current_time_offset])
    else some (⟨st.audio_buffer ++ samples, st.current_time_offset⟩, [])
  | InMsg.song_position position =>
    some (⟨st.audio_buffer, position⟩, [])
  | InMsg.end_performance =>
    some (st, [OutMsg.performance_complete])
  | InMsg.unknown _ => some (st, [])
  | InMsg.malformed => none

/-- The session state at connection time (lines 192-196). -/
def initialSession : SessionState := ⟨[], 0⟩

/-- The receive loop run over a list of inbound messages, collecting every
outbound message; none models a session ended by a raised exception. -/
def runSession (detect : List ℚ → List PitchPoint)
    (reference : List PitchPoint) :
    SessionState → List InMsg → Option (SessionState × List OutMsg)
  | st, [] => some (st, [])
  | st, m :: ms =>
    match step detect reference st m with
    | none => none
    | some (st1, outs) =>
      match runSession detect reference st1 ms with
      | none => none
      | some (st2, rest) => some (st2, outs ++ rest)

theorem compareOne_some_spec {ref_map : List (ℚ × Option ℚ)}
    {time_offset : ℚ} {p : PitchPoint} {c : PitchComparison}
    (h : compareOne ref_map time_offset p = some (some c)) :
    c.timestamp = p.timestamp + time_offset ∧
    c.user_pitch = p.pitch ∧
    c.deviation_percentage =
      (match c.reference_pitch, c.user_pitch with
       | some r, some u => if 0 < r then some (|u - r| / r * 100) else none
       | _, _ => none) := by
  unfold compareOne at h
  cases hmin : minAbsDist (p.timestamp + time_offset) (ref_map.map Prod.fst) with
  | none => simp [hmin] at h
  | some closest =>
    rw [hmin] at h
    simp only [] at h
    split at h
    · cases hget : dictGet ref_map closest with
      | none => rw [hget] at h; exact absurd h (by simp)
      | some ref_pitch =>
        rw [hget] at h
        simp only [Option.some.injEq] at h
        subst h
        refine ⟨rfl, rfl, ?_⟩
        rfl
    · exact absurd h (by simp)

theorem mem_comparePitchesAux {ref_map : List (ℚ × Option ℚ)}
    {time_offset : ℚ} {user : List PitchPoint} {res : List PitchComparison}
    {c : PitchComparison}
    (h : comparePitchesAux ref_map time_offset user = some res)
    (hc : c ∈ res) :
    ∃ p ∈ user, compareOne ref_map time_offset p = some (some c) := by
  induction user generalizing res with
  | nil =>
    unfold comparePitchesAux at h
    simp only [Option.some.injEq] at h
    subst h
    exact absurd hc (by simp)
  | cons p ps ih =>
    unfold comparePitchesAux at h
    cases hone : compareOne ref_map time_offset p with
    | none => rw [hone] at h; exact absurd h (by simp)
    | some o =>
      rw [hone] at h
      cases haux : comparePitchesAux ref_map time_offset ps with
      | none => rw [haux] at h; exact absurd h (by simp)
      | some rest =>
        rw [haux] at h
        simp only [Option.some.injEq] at h
        cases o with
        | none =>
          subst h
          obtain ⟨q, hq, hq2⟩ := ih haux hc
          exact ⟨q, List.mem_cons_of_mem p hq, hq2⟩
        | some c0 =>
          subst h
          rcases List.mem_cons.mp hc with hceq | hcmem
          · subst hceq
            exact ⟨p, List.mem_cons_self p ps, hone⟩
          · obtain ⟨q, hq, hq2⟩ := ih haux hcmem
            exact ⟨q, List.mem_cons_of_mem p hq, hq2⟩

theorem mem_compare_pitches_spec {reference user : List PitchPoint}
    {time_offset : ℚ} {res : List PitchComparison} {c : PitchComparison}
    (h : compare_pitches reference user time_offset = some res)
    (hc : c ∈ res) :
    c.deviation_percentage =
      (match c.reference_pitch, c.user_pitch with
       | some r, some u => if 0 < r then some (|u - r| / r * 100) else none
       | _, _ => none) := by
  obtain ⟨p, _, hp⟩ := mem_comparePitchesAux h hc
  exact (compareOne_some_spec hp).2.2

/-- C1: in every comparison produced by compare_pitches,
deviation_percentage is present exactly when both pitches are present and
the reference pitch is positive, in which case it is the nonnegative value
of the difference of the pitches divided by the reference pitch, times 100;
and on the reference curve (0, 200 Hz), (1, 210 Hz) with the single user
sample (0, 260 Hz) at offset 0, the one result deviates by 30 percent. -/
theorem compare_pitches_deviation_spec :
    (∀ (reference user : List PitchPoint) (time_offset : ℚ)
       (res : List PitchComparison) (c : PitchComparison),
       compare_pitches reference user time_offset = some res → c ∈ res →
       (∀ d, c.deviation_percentage = some d ↔
          ∃ r u, c.reference_pitch = some r ∧ c.user_pitch = some u ∧
            0 < r ∧ d = |u - r| / r * 100) ∧
       (∀ d, c.deviation_percentage = some d → 0 ≤ d)) ∧
    compare_pitches [⟨0, some 200⟩, ⟨1, some 210⟩] [⟨0, some 260⟩] 0 =
      some [⟨0, some 200, some 260, some 30⟩] := by
  constructor
  · intro reference user time_offset res c h hc
    have hspec := mem_compare_pitches_spec h hc
    obtain ⟨t, rp, up, dev⟩ := c
    dsimp only at hspec ⊢
    subst hspec
    constructor
    · intro d
      cases rp with
      | none => simp
      | some r =>
        cases up with
        | none => simp
        | some u =>
          by_cases h0 : 0 < r
          · simp only [if_pos h0, Option.some.injEq]
            constructor
            · intro hd; exact ⟨r, u, rfl, rfl, h0, hd.symm⟩
            · rintro ⟨r2, u2, hr2, hu2, -, hd⟩
              cases Option.some.injEq .. ▸ hr2
              cases Option.some.injEq .. ▸ hu2
              rw [hd]
          · simp only [if_neg h0]
            constructor
            · intro hd; exact absurd hd (by simp)
            · rintro ⟨r2, u2, hr2, -, h02, -⟩
              cases Option.some.injEq .. ▸ hr2
              exact absurd h02 h0
    · intro d hd
      cases rp with
      | none => exact absurd hd (by cases up <;> simp)
      | some r =>
        cases up with
        | none => exact absurd hd (by simp)
        | some u =>
          dsimp only at hd
          by_cases h0 : 0 < r
          · rw [if_pos h0, Option.some.injEq] at hd
            rw [← hd]
            have h1 : (0:ℚ) ≤ |u - r| / r := div_nonneg (abs_nonneg _) (le_of_lt h0)
            exact mul_nonneg h1 (by norm_num)
          · rw [if_neg h0] at hd
            exact absurd hd (by simp)
  · decide

theorem compare_pitches_deviation_spec_witness : (0:ℚ) ≤ 30 :=
  (compare_pitches_deviation_spec.1 [⟨0, some 200⟩, ⟨1, some 210⟩]
      [⟨0, some 260⟩] 0 [⟨0, some 200, some 260, some 30⟩]
      ⟨0, some 200, some 260, some 30⟩
      compare_pitches_deviation_spec.2 (by decide)).2 30 rfl

/-- C3 counterexample: the records built by compare_pitches have exactly
the fields timestamp, reference_pitch, user_pitch and deviation_percentage,
with no direction field; in particular the single result of the reference
curve (0, 200 Hz), (1, 210 Hz) against the user sample (0, 260 Hz) at
offset 0 has both pitches present and still carries no direction. -/
theorem comparison_direction_cex :
    "direction" ∉ pitchComparisonFields ∧
    compare_pitches [⟨0, some 200⟩, ⟨1, some 210⟩] [⟨0, some 260⟩] 0 =
      some [⟨0, some 200, some 260, some 30⟩] := by
  refine ⟨by simp [pitchComparisonFields], by decide⟩

/-- C3 amended: the comparisons emitted by compare_pitches carry no
direction field at all (the record's fields are exactly timestamp,
reference_pitch, user_pitch and deviation_percentage); when both pitches
are present and the reference pitch is positive, the record consists of
those two pitches together with the derived deviation percentage only, and
no ABOVE or BELOW indication is reported. -/
theorem comparison_no_direction_field :
    "direction" ∉ pitchComparisonFields ∧
    ∀ (reference user : List PitchPoint) (time_offset : ℚ)
      (res : List PitchComparison) (c : PitchComparison),
      compare_pitches reference user time_offset = some res → c ∈ res →
      ∀ r u, c.reference_pitch = some r → c.user_pitch = some u → 0 < r →
        c = ⟨c.timestamp, some r, some u, some (|u - r| / r * 100)⟩ := by
  refine ⟨by simp [pitchComparisonFields], ?_⟩
  intro reference user time_offset res c h hc r u hr hu h0
  have hspec := mem_compare_pitches_spec h hc
  obtain ⟨t, rp, up, dev⟩ := c
  dsimp only at hspec hr hu ⊢
  subst hr
  subst hu
  dsimp only at hspec
  rw [if_pos h0] at hspec
  rw [hspec]

theorem comparison_no_direction_field_witness :
    (⟨0, some 200, some 260, some 30⟩ : PitchComparison) =
      ⟨0, some 200, some 260, some (|(260:ℚ) - 200| / 200 * 100)⟩ :=
  comparison_no_direction_field.2 [⟨0, some 200⟩, ⟨1, some 210⟩]
    [⟨0, some 260⟩] 0 [⟨0, some 200, some 260, some 30⟩]
    ⟨0, some 200, some 260, some 30⟩ (by decide) (by decide)
    200 260 rfl rfl (by norm_num)

/-- C9: compare_pitches is a pure function of its three arguments: two
invocations on the same reference list, user list and offset return the
same result, and the inputs, being immutable values of the model, are not
mutated by either invocation. -/
theorem compare_pitches_deterministic :
    ∀ (ref1 ref2 user1 user2 : List PitchPoint) (off1 off2 : ℚ),
      ref1 = ref2 → user1 = user2 → off1 = off2 →
      compare_pitches ref1 user1 off1 = compare_pitches ref2 user2 off2 := by
  intro ref1 ref2 user1 user2 off1 off2 h1 h2 h3
  rw [h1, h2, h3]

theorem closeSection_duration {acc : List ProblemSection × Option ProblemSection}
    (hacc : ∀ s ∈ acc.1, s.end_time - s.start_time > 1 / 2) :
    ∀ s ∈ closeSection acc, s.end_time - s.start_time > 1 / 2 := by
  obtain ⟨secs, cur⟩ := acc
  intro s hs
  cases cur with
  | none => exact hacc s hs
  | some s0 =>
    unfold closeSection at hs
    dsimp only at hs
    split at hs
    · rcases List.mem_append.mp hs with h1 | h1
      · exact hacc s h1
      · cases List.mem_singleton.mp h1
        assumption
    · exact hacc s hs

theorem sectionStep_duration {threshold : ℚ}
    {acc : List ProblemSection × Option ProblemSection} {comp : PitchComparison}
    (hacc : ∀ s ∈ acc.1, s.end_time - s.start_time > 1 / 2) :
    ∀ s ∈ (sectionStep threshold acc comp).1, s.end_time - s.start_time > 1 / 2 := by
  intro s hs
  unfold sectionStep at hs
  cases hdev : comp.deviation_percentage with
  | none =>
    rw [hdev] at hs
    dsimp only at hs
    exact closeSection_duration hacc s hs
  | some d =>
    rw [hdev] at hs
    dsimp only at hs
    split at hs
    · cases hcur : acc.2 with
      | none =>
        rw [hcur] at hs
        dsimp only at hs
        exact hacc s hs
      | some s0 =>
        rw [hcur] at hs
        dsimp only at hs
        exact hacc s hs
    · exact closeSection_duration hacc s hs

theorem foldl_sectionStep_duration (threshold : ℚ) (comps : List PitchComparison) :
    ∀ acc, (∀ s ∈ acc.1, s.end_time - s.start_time > 1 / 2) →
      ∀ s ∈ (comps.foldl (sectionStep threshold) acc).1,
        s.end_time - s.start_time > 1 / 2 := by
  induction comps with
  | nil => intro acc hacc; exact hacc
  | cons c cs ih =>
    intro acc hacc
    exact ih (sectionStep threshold acc c) (sectionStep_duration hacc)

/-- C4: every section emitted by find_problem_sections, the final
still-open one included, lasts strictly longer than half a second; and on
the five comparisons of Scenario B (deviations 40, 45, 50, 20, 35 at
timestamps 0, 0.2, 0.4, 0.6, 0.8, threshold 30) the candidate section
spanning 0 to 0.4 seconds is discarded and nothing is emitted. -/
theorem problem_sections_min_duration :
    (∀ (comparisons : List PitchComparison) (threshold : ℚ)
       (s : ProblemSection), s ∈ find_problem_sections comparisons threshold →
       s.end_time - s.start_time > 1 / 2) ∧
    find_problem_sections
      [⟨0, none, none, some 40⟩, ⟨1/5, none, none, some 45⟩,
       ⟨2/5, none, none, some 50⟩, ⟨3/5, none, none, some 20⟩,
       ⟨4/5, none, none, some 35⟩] 30 = [] := by
  constructor
  · intro comparisons threshold s hs
    unfold find_problem_sections at hs
    exact closeSection_duration
      (foldl_sectionStep_duration threshold comparisons ([], none) (by simp)) s hs
  · decide

theorem problem_sections_min_duration_witness :
    (⟨0, 1, 45⟩ : ProblemSection).end_time -
      (⟨0, 1, 45⟩ : ProblemSection).start_time > 1 / 2 :=
  problem_sections_min_duration.1
    [⟨0, none, none, some 40⟩, ⟨1, none, none, some 50⟩, ⟨2, none, none, none⟩]
    30 ⟨0, 1, 45⟩ (by decide)

/-- C5: on three consecutive comparisons deviating by 40, 45 and 50
percent at timestamps 0, 0.3 and 0.6 seconds (threshold 30), the code
emits one section whose avg_deviation is 46.25, the value of the fold
((40 + 45) / 2 + 50) / 2, and not the arithmetic mean 45 of the three
contributing deviations. -/
theorem find_problem_sections_biased_avg :
    find_problem_sections
      [⟨0, none, none, some 40⟩, ⟨3/10, none, none, some 45⟩,
       ⟨3/5, none, none, some 50⟩] 30 = [⟨0, 3/5, 185/4⟩] ∧
    (185/4 : ℚ) ≠ (40 + 45 + 50) / 3 := by
  refine ⟨by decide, by norm_num⟩

theorem compare_pitches_deterministic_witness :
    compare_pitches [⟨0, some 200⟩, ⟨1, some 210⟩] [⟨0, some 260⟩] 0 =
      compare_pitches [⟨0, some 200⟩, ⟨1, some 210⟩] [⟨0, some 260⟩] 0 :=
  compare_pitches_deterministic [⟨0, some 200⟩, ⟨1, some 210⟩]
    [⟨0, some 200⟩, ⟨1, some 210⟩] [⟨0, some 260⟩] [⟨0, some 260⟩] 0 0
    rfl rfl rfl

theorem runSession_cons (detect : List ℚ → List PitchPoint)
    (reference : List PitchPoint) (st : SessionState) (m : InMsg)
    (ms : List InMsg) :
    runSession detect reference st (m :: ms) =
      match step detect reference st m with
      | none => none
      | some (st1, outs) =>
        match runSession detect reference st1 ms with
        | none => none
        | some (st2, rest) => some (st2, outs ++ rest) := rfl

theorem step_full_buffer (detect : List ℚ → List PitchPoint)
    (reference : List PitchPoint) (st : SessionState) (samples : List ℚ)
    (comparisons : List PitchComparison)
    (hlen : samples_per_buffer ≤ (st.audio_buffer ++ samples).length)
    (hcmp : compare_pitches reference
        (detect ((st.audio_buffer ++ samples).take samples_per_buffer))
        st.current_time_offset = some comparisons) :
    step detect reference st (InMsg.audio_chunk samples) =
      some (⟨(st.audio_buffer ++ samples).drop samples_per_buffer,
             st.current_time_offset + 1⟩,
            [OutMsg.pitch_update
               (detect ((st.audio_buffer ++ samples).take samples_per_buffer))
               comparisons st.current_time_offset]) := by
  simp only [step]
  rw [if_pos hlen, hcmp]
  rfl

/-- C6: a song_position message overwrites the session's time offset with
exactly the position value of the message; processing a full buffer of
audio runs the comparison at the session's current offset, emits the
pitch_update carrying that pre-advance offset, and only then advances the
offset by the buffer duration of one second; composing the two, the first
full buffer after a resync is compared and reported at the resync
position. -/
theorem session_offset_update :
    ∀ (detect : List ℚ → List PitchPoint) (reference : List PitchPoint)
      (st : SessionState) (position : ℚ),
      step detect reference st (InMsg.song_position position) =
        some (⟨st.audio_buffer, position⟩, []) ∧
      (∀ (samples : List ℚ) (comparisons : List PitchComparison),
        samples_per_buffer ≤ (st.audio_buffer ++ samples).length →
        compare_pitches reference
            (detect ((st.audio_buffer ++ samples).take samples_per_buffer))
            st.current_time_offset = some comparisons →
        step detect reference st (InMsg.audio_chunk samples) =
          some (⟨(st.audio_buffer ++ samples).drop samples_per_buffer,
                 st.current_time_offset + 1⟩,
                [OutMsg.pitch_update
                   (detect ((st.audio_buffer ++ samples).take samples_per_buffer))
                   comparisons st.current_time_offset])) ∧
      (∀ (samples : List ℚ) (comparisons : List PitchComparison),
        samples_per_buffer ≤ (st.audio_buffer ++ samples).length →
        compare_pitches reference
            (detect ((st.audio_buffer ++ samples).take samples_per_buffer))
            position = some comparisons →
        runSession detect reference st
            [InMsg.song_position position, InMsg.audio_chunk samples] =
          some (⟨(st.audio_buffer ++ samples).drop samples_per_buffer,
                 position + 1⟩,
                [OutMsg.pitch_update
                   (detect ((st.audio_buffer ++ samples).take samples_per_buffer))
                   comparisons position])) := by
  intro detect reference st position
  refine ⟨rfl, ?_, ?_⟩
  · intro samples comparisons hlen hcmp
    exact step_full_buffer detect reference st samples comparisons hlen hcmp
  · intro samples comparisons hlen hcmp
    rw [runSession_cons,
        show step detect reference st (InMsg.song_position position) =
          some (⟨st.audio_buffer, position⟩, []) from rfl]
    dsimp only
    rw [runSession_cons,
        step_full_buffer detect reference ⟨st.audio_buffer, position⟩
          samples comparisons hlen hcmp]
    rfl

theorem session_offset_update_witness :
    step (fun _ => []) [⟨0, some 200⟩] ⟨[], 5⟩
        (InMsg.audio_chunk (List.replicate samples_per_buffer 0)) =
      some (⟨(([] : List ℚ) ++ List.replicate samples_per_buffer 0).drop
               samples_per_buffer, 5 + 1⟩,
            [OutMsg.pitch_update [] [] 5]) :=
  ((session_offset_update (fun _ => []) [⟨0, some 200⟩] ⟨[], 5⟩ 0).2.1
    (List.replicate samples_per_buffer 0) []
    (by simp) rfl)

theorem runSession_below_buffer (detect : List ℚ → List PitchPoint)
    (reference : List PitchPoint) (chunks : List (List ℚ)) :
    ∀ st : SessionState,
      st.audio_buffer.length + (chunks.map List.length).sum < samples_per_buffer →
      runSession detect reference st (chunks.map InMsg.audio_chunk) =
        some (⟨st.audio_buffer ++ chunks.flatten, st.current_time_offset⟩, []) := by
  induction chunks with
  | nil => intro st hlt; simp [runSession]
  | cons c cs ih =>
    intro st hlt
    have hlen : ¬ samples_per_buffer ≤ (st.audio_buffer ++ c).length := by
      rw [List.length_append]
      rw [List.map_cons, List.sum_cons] at hlt
      omega
    rw [List.map_cons, runSession_cons,
        show step detect reference st (InMsg.audio_chunk c) =
          some (⟨st.audio_buffer ++ c, st.current_time_offset⟩, []) by
          simp only [step]; rw [if_neg hlen]]
    dsimp only
    rw [ih ⟨st.audio_buffer ++ c, st.current_time_offset⟩
          (by dsimp only; rw [List.length_append]
              rw [List.map_cons, List.sum_cons] at hlt; omega)]
    simp

/-- C7: as long as the audio chunks received by a fresh session amount to
strictly fewer than samples_per_buffer = 44100 samples in total, the
session emits nothing, only appends the samples to its buffer in arrival
order, and never invokes the pitch detector or the comparison (the run is
identical for every detector and every reference curve). -/
theorem session_small_buffer_silent :
    ∀ (detect detect' : List ℚ → List PitchPoint)
      (reference reference' : List PitchPoint) (chunks : List (List ℚ)),
      (chunks.map List.length).sum < samples_per_buffer →
      runSession detect reference initialSession (chunks.map InMsg.audio_chunk) =
        some (⟨chunks.flatten, 0⟩, []) ∧
      runSession detect reference initialSession (chunks.map InMsg.audio_chunk) =
        runSession detect' reference' initialSession (chunks.map InMsg.audio_chunk) := by
  intro detect detect' reference reference' chunks hlt
  have h1 := runSession_below_buffer detect reference chunks initialSession
    (by simpa [initialSession] using hlt)
  have h2 := runSession_below_buffer detect' reference' chunks initialSession
    (by simpa [initialSession] using hlt)
  simp only [initialSession, List.nil_append] at h1 h2
  exact ⟨h1, h1.trans h2.symm⟩

theorem session_small_buffer_silent_witness :
    runSession (fun _ => []) [⟨0, some 200⟩] initialSession
        ([[0], [1, 2]].map InMsg.audio_chunk) =
      some (⟨[[0], [1, 2]].flatten, 0⟩, []) :=
  (session_small_buffer_silent (fun _ => []) (fun _ => [⟨0, some 1⟩])
    [⟨0, some 200⟩] [] [[0], [1, 2]] (by norm_num [samples_per_buffer])).1

/-- C8 counterexample: from a fresh session, an undecodable inbound
payload makes the receive loop raise, which ends the session through the
generic exception handler instead of reporting a structured error event;
and a well-formed message with an unknown type is ignored without any
outbound message, so no structured error event exists in either case. -/
theorem malformed_message_cex :
    step (fun _ => []) [⟨0, some 200⟩] initialSession InMsg.malformed = none ∧
    step (fun _ => []) [⟨0, some 200⟩] initialSession (InMsg.unknown "resync") =
      some (initialSession, []) :=
  ⟨rfl, rfl⟩

/-- C8 amended: a malformed inbound message (undecodable payload) raises
and terminates the session — only the disconnect path handles it, no error
event is sent; an inbound message with an unknown type field is silently
skipped: the session continues but no structured error event is reported
in either case. -/
theorem malformed_message_behavior :
    ∀ (detect : List ℚ → List PitchPoint) (reference : List PitchPoint)
      (st : SessionState) (t : String),
      step detect reference st InMsg.malformed = none ∧
      step detect reference st (InMsg.unknown t) = some (st, []) :=
  fun _ _ _ _ => ⟨rfl, rfl⟩

theorem dictInsert_ne_nil (m : List (ℚ × Option ℚ)) (k : ℚ) (v : Option ℚ) :
    dictInsert m k v ≠ [] := by
  cases m with
  | nil => simp [dictInsert]
  | cons kv m =>
    unfold dictInsert
    split <;> simp

theorem buildRefMap_ne_nil {reference : List PitchPoint}
    (h : reference ≠ []) : buildRefMap reference ≠ [] := by
  unfold buildRefMap
  cases reference with
  | nil => exact absurd rfl h
  | cons p ps =>
    rw [List.foldl_cons]
    have : ∀ (l : List PitchPoint) (m : List (ℚ × Option ℚ)), m ≠ [] →
        l.foldl (fun m p => dictInsert m p.timestamp p.pitch) m ≠ [] := by
      intro l
      induction l with
      | nil => intro m hm; exact hm
      | cons q qs ih =>
        intro m hm
        rw [List.foldl_cons]
        exact ih _ (dictInsert_ne_nil _ _ _)
    exact this ps _ (dictInsert_ne_nil _ _ _)

theorem minAbsDist_mem {adjusted : ℚ} {keys : List ℚ} {t : ℚ}
    (h : minAbsDist adjusted keys = some t) : t ∈ keys := by
  cases keys with
  | nil => exact absurd h (by simp [minAbsDist])
  | cons k ks =>
    unfold minAbsDist at h
    rw [Option.some.injEq] at h
    subst h
    have : ∀ (l : List ℚ) (b : ℚ), l.foldl (pickCloser adjusted) b ∈ b :: l := by
      intro l
      induction l with
      | nil => intro b; simp
      | cons u us ih =>
        intro b
        rw [List.foldl_cons]
        unfold pickCloser
        split
        · have h1 := ih u
          simp only [List.mem_cons] at h1 ⊢
          tauto
        · have h1 := ih b
          simp only [List.mem_cons] at h1 ⊢
          tauto
    exact this ks k

theorem dictGet_mem_keys {m : List (ℚ × Option ℚ)} {t : ℚ}
    (h : t ∈ m.map Prod.fst) : ∃ v, dictGet m t = some v := by
  induction m with
  | nil => exact absurd h (by simp)
  | cons kv m ih =>
    by_cases hk : kv.1 = t
    · exact ⟨kv.2, by unfold dictGet; rw [if_pos hk]⟩
    · rw [List.map_cons] at h
      rcases List.mem_cons.mp h with h1 | h1
      · exact absurd h1.symm hk
      · obtain ⟨v, hv⟩ := ih h1
        exact ⟨v, by unfold dictGet; rw [if_neg hk]; exact hv⟩

theorem compareOne_isSome {ref_map : List (ℚ × Option ℚ)} {time_offset : ℚ}
    (p : PitchPoint) (hm : ref_map ≠ []) :
    ∃ o, compareOne ref_map time_offset p = some o := by
  unfold compareOne
  cases hmin : minAbsDist (p.timestamp + time_offset) (ref_map.map Prod.fst) with
  | none =>
    cases hm2 : ref_map with
    | nil => exact absurd hm2 hm
    | cons kv m => rw [hm2] at hmin; simp [minAbsDist] at hmin
  | some closest =>
    dsimp only
    split
    · obtain ⟨v, hv⟩ := dictGet_mem_keys (minAbsDist_mem hmin)
      rw [hv]
      exact ⟨_, rfl⟩
    · exact ⟨none, rfl⟩

/-- C10: compare_pitches raises (min over an empty key set) on an empty
reference list whenever there is at least one user sample, and for a
nonempty reference list the raising branch is unreachable: a list, possibly
empty, is always returned. -/
theorem compare_pitches_empty_reference :
    (∀ (user : List PitchPoint) (time_offset : ℚ), user ≠ [] →
       compare_pitches [] user time_offset = none) ∧
    (∀ (reference user : List PitchPoint) (time_offset : ℚ), reference ≠ [] →
       ∃ res, compare_pitches reference user time_offset = some res) := by
  constructor
  · intro user time_offset hu
    cases user with
    | nil => exact absurd rfl hu
    | cons p ps =>
      show comparePitchesAux (buildRefMap []) time_offset (p :: ps) = none
      unfold comparePitchesAux
      rw [show compareOne (buildRefMap []) time_offset p = none from rfl]
  · intro reference user time_offset hr
    have hm := buildRefMap_ne_nil hr
    show ∃ res, comparePitchesAux (buildRefMap reference) time_offset user = some res
    induction user with
    | nil => exact ⟨[], rfl⟩
    | cons p ps ih =>
      obtain ⟨res, hres⟩ := ih
      obtain ⟨o, ho⟩ := compareOne_isSome p hm
      unfold comparePitchesAux
      rw [ho, hres]
      exact ⟨_, rfl⟩

theorem compare_pitches_empty_reference_witness :
    compare_pitches [] [⟨0, none⟩] 0 = none ∧
    ∃ res, compare_pitches [⟨0, some 1⟩] [] 0 = some res :=
  ⟨compare_pitches_empty_reference.1 [⟨0, none⟩] 0 (by simp),
   compare_pitches_empty_reference.2 [⟨0, some 1⟩] [] 0 (by simp)⟩

theorem foldl_pickCloser_le (adjusted : ℚ) :
    ∀ (ts : List ℚ) (b : ℚ), ∀ u ∈ b :: ts,
      |ts.foldl (pickCloser adjusted) b - adjusted| ≤ |u - adjusted| := by
  intro ts
  induction ts with
  | nil =>
    intro b u hu
    rcases List.mem_cons.mp hu with h | h
    · subst h; exact le_refl _
    · exact absurd h (by simp)
  | cons v vs ih =>
    intro b u hu
    rw [List.foldl_cons]
    by_cases hc : |v - adjusted| < |b - adjusted|
    · rw [show pickCloser adjusted b v = v from by unfold pickCloser; rw [if_pos hc]]
      rcases List.mem_cons.mp hu with h | h
      · subst h
        exact le_trans (ih v v (List.mem_cons_self v vs)) (le_of_lt hc)
      · exact ih v u h
    · rw [show pickCloser adjusted b v = b from by unfold pickCloser; rw [if_neg hc]]
      rcases List.mem_cons.mp hu with h | h
      · rw [h]; exact ih b b (List.mem_cons_self b vs)
      · rcases List.mem_cons.mp h with h2 | h2
        · subst h2
          exact le_trans (ih b b (List.mem_cons_self b vs)) (le_of_not_lt hc)
        · exact ih b u (List.mem_cons_of_mem b h2)

theorem foldl_pickCloser_first (adjusted : ℚ) :
    ∀ (ts : List ℚ) (b : ℚ), List.Pairwise (· < ·) (b :: ts) →
      ∀ u ∈ b :: ts,
        |u - adjusted| = |ts.foldl (pickCloser adjusted) b - adjusted| →
        ts.foldl (pickCloser adjusted) b ≤ u := by
  intro ts
  induction ts with
  | nil =>
    intro b _ u hu _
    rcases List.mem_cons.mp hu with h | h
    · rw [h]; exact le_refl b
    · exact absurd h (by simp)
  | cons v vs ih =>
    intro b hp u hu heq
    rw [List.foldl_cons] at heq ⊢
    by_cases hc : |v - adjusted| < |b - adjusted|
    · rw [show pickCloser adjusted b v = v from by
          unfold pickCloser; rw [if_pos hc]] at heq ⊢
      rcases List.mem_cons.mp hu with h | h
      · subst h
        have hle := foldl_pickCloser_le adjusted vs v v (List.mem_cons_self v vs)
        exact absurd (heq ▸ hle) (not_le_of_lt hc)
      · exact ih v hp.of_cons u h heq
    · rw [show pickCloser adjusted b v = b from by
          unfold pickCloser; rw [if_neg hc]] at heq ⊢
      have hble : |b - adjusted| ≤ |v - adjusted| := le_of_not_lt hc
      have hp2 : List.Pairwise (· < ·) (b :: vs) :=
        hp.sublist ((List.sublist_cons_self v vs).cons₂ b)
      rcases List.mem_cons.mp hu with h | h
      · rw [h] at heq ⊢
        exact ih b hp2 b (List.mem_cons_self b vs) heq
      · rcases List.mem_cons.mp h with h2 | h2
        · subst h2
          have h3 := foldl_pickCloser_le adjusted vs b b (List.mem_cons_self b vs)
          have h4 : |b - adjusted| = |vs.foldl (pickCloser adjusted) b - adjusted| :=
            le_antisymm (le_trans hble (le_of_eq heq)) h3
          have h5 := ih b hp2 b (List.mem_cons_self b vs) h4
          have h6 : b < u := List.rel_of_pairwise_cons hp (List.mem_cons_self u vs)
          exact le_of_lt (lt_of_le_of_lt h5 h6)
        · exact ih b hp2 u (List.mem_cons_of_mem b h2) heq

theorem minAbsDist_le {adjusted t : ℚ} {keys : List ℚ}
    (h : minAbsDist adjusted keys = some t) :
    ∀ u ∈ keys, |t - adjusted| ≤ |u - adjusted| := by
  cases keys with
  | nil => exact absurd h (by simp [minAbsDist])
  | cons k ks =>
    unfold minAbsDist at h
    rw [Option.some.injEq] at h
    subst h
    exact fun u hu => foldl_pickCloser_le adjusted ks k u hu

theorem minAbsDist_first {adjusted t : ℚ} {keys : List ℚ}
    (hp : List.Pairwise (· < ·) keys) (h : minAbsDist adjusted keys = some t) :
    ∀ u ∈ keys, |u - adjusted| = |t - adjusted| → t ≤ u := by
  cases keys with
  | nil => exact absurd h (by simp [minAbsDist])
  | cons k ks =>
    unfold minAbsDist at h
    rw [Option.some.injEq] at h
    subst h
    exact fun u hu heq => foldl_pickCloser_first adjusted ks k hp u hu heq

theorem dictInsert_fresh {m : List (ℚ × Option ℚ)} {k : ℚ} (v : Option ℚ)
    (h : k ∉ m.map Prod.fst) : dictInsert m k v = m ++ [(k, v)] := by
  induction m with
  | nil => rfl
  | cons kv m ih =>
    rw [List.map_cons] at h
    unfold dictInsert
    rw [if_neg (fun he => h (List.mem_cons.mpr (Or.inl he.symm)))]
    rw [ih (fun hm => h (List.mem_cons.mpr (Or.inr hm)))]
    rfl

theorem buildRefMap_eq_map {reference : List PitchPoint}
    (h : List.Pairwise (· ≠ ·) (reference.map PitchPoint.timestamp)) :
    buildRefMap reference = reference.map (fun p => (p.timestamp, p.pitch)) := by
  suffices h2 : ∀ (l : List PitchPoint) (m : List (ℚ × Option ℚ)),
      List.Pairwise (· ≠ ·) (l.map PitchPoint.timestamp) →
      (∀ p ∈ l, p.timestamp ∉ m.map Prod.fst) →
      l.foldl (fun m p => dictInsert m p.timestamp p.pitch) m =
        m ++ l.map (fun p => (p.timestamp, p.pitch)) by
    have h3 := h2 reference [] h (by simp)
    rw [List.nil_append] at h3
    exact h3
  intro l
  induction l with
  | nil => intro m _ _; simp
  | cons p ps ih =>
    intro m hp hdisj
    rw [List.foldl_cons, dictInsert_fresh p.pitch (hdisj p (List.mem_cons_self p ps))]
    rw [List.map_cons] at hp
    rw [ih (m ++ [(p.timestamp, p.pitch)]) hp.of_cons ?_]
    · rw [List.map_cons, List.append_assoc]
      rfl
    · intro q hq
      rw [List.map_append, List.mem_append]
      rintro (h1 | h1)
      · exact hdisj q (List.mem_cons_of_mem p hq) h1
      · have h2 : q.timestamp = p.timestamp := by
          simpa using h1
        exact List.rel_of_pairwise_cons hp (List.mem_map_of_mem PitchPoint.timestamp hq) h2.symm

theorem buildRefMap_keys {reference : List PitchPoint}
    (h : List.Pairwise (· ≠ ·) (reference.map PitchPoint.timestamp)) :
    (buildRefMap reference).map Prod.fst = reference.map PitchPoint.timestamp := by
  rw [buildRefMap_eq_map h, List.map_map]
  rfl

theorem comparePitchesAux_cons (ref_map : List (ℚ × Option ℚ))
    (time_offset : ℚ) (p : PitchPoint) (ps : List PitchPoint) :
    comparePitchesAux ref_map time_offset (p :: ps) =
      match compareOne ref_map time_offset p with
      | none => none
      | some o =>
        match comparePitchesAux ref_map time_offset ps with
        | none => none
        | some rest =>
          some (match o with
                | none => rest
                | some c => c :: rest) := rfl

theorem compareOne_far {reference : List PitchPoint} {user_point : PitchPoint}
    {time_offset : ℚ}
    (hs : List.Pairwise (· < ·) (reference.map PitchPoint.timestamp))
    (hne : reference ≠ [])
    (hfar : ∀ p ∈ reference,
      ¬ |p.timestamp - (user_point.timestamp + time_offset)| < 1 / 20) :
    compareOne (buildRefMap reference) time_offset user_point = some none := by
  have hkeys := buildRefMap_keys (hs.imp (fun h => ne_of_lt h))
  unfold compareOne
  cases hmin : minAbsDist (user_point.timestamp + time_offset)
      ((buildRefMap reference).map Prod.fst) with
  | none =>
    rw [hkeys] at hmin
    cases href : reference with
    | nil => exact absurd href hne
    | cons p ps => rw [href] at hmin; simp [minAbsDist] at hmin
  | some t =>
    dsimp only
    have ht : t ∈ reference.map PitchPoint.timestamp := by
      have h2 := minAbsDist_mem hmin
      rwa [hkeys] at h2
    obtain ⟨p0, hp0, hpt⟩ := List.mem_map.mp ht
    rw [if_neg (hpt ▸ hfar p0 hp0)]

theorem compare_pitches_drop {reference : List PitchPoint}
    {user_point : PitchPoint} {time_offset : ℚ} (rest : List PitchPoint)
    (h : compareOne (buildRefMap reference) time_offset user_point = some none) :
    compare_pitches reference (user_point :: rest) time_offset =
      compare_pitches reference rest time_offset := by
  show comparePitchesAux _ _ (user_point :: rest) = comparePitchesAux _ _ rest
  rw [comparePitchesAux_cons, h]
  cases haux : comparePitchesAux (buildRefMap reference) time_offset rest with
  | none => rfl
  | some r => rfl

theorem compareOne_near {reference : List PitchPoint} {user_point : PitchPoint}
    {time_offset : ℚ} {t : ℚ}
    (hmin : minAbsDist (user_point.timestamp + time_offset)
        ((buildRefMap reference).map Prod.fst) = some t)
    (hlt : |t - (user_point.timestamp + time_offset)| < 1 / 20) :
    ∃ v, dictGet (buildRefMap reference) t = some v ∧
      compareOne (buildRefMap reference) time_offset user_point =
        some (some ⟨user_point.timestamp + time_offset, v, user_point.pitch,
          match v, user_point.pitch with
          | some r, some u => if 0 < r then some (|u - r| / r * 100) else none
          | _, _ => none⟩) := by
  obtain ⟨v, hv⟩ := dictGet_mem_keys (minAbsDist_mem hmin)
  refine ⟨v, hv, ?_⟩
  unfold compareOne
  rw [hmin]
  dsimp only
  rw [if_pos hlt, hv]

/-- C2 amended: with a reference curve of strictly increasing timestamps,
the nearest-timestamp lookup of compare_pitches drops a user sample
exactly when every reference timestamp is at distance at least 0.05 s from
the adjusted timestamp (the code requires strict distance below 0.05 s to
match, so a sample exactly at the tolerance is dropped, not matched); the
drop removes the sample from the output without an error; otherwise the
lookup returns a closest reference timestamp, lowest first on a distance
tie, and the comparison is built from the pitch stored at it. -/
theorem nearest_lookup_spec :
    ∀ (reference : List PitchPoint) (user_point : PitchPoint) (time_offset : ℚ),
      List.Pairwise (· < ·) (reference.map PitchPoint.timestamp) →
      reference ≠ [] →
      ((∀ p ∈ reference,
          ¬ |p.timestamp - (user_point.timestamp + time_offset)| < 1 / 20) →
        compareOne (buildRefMap reference) time_offset user_point = some none ∧
        ∀ rest, compare_pitches reference (user_point :: rest) time_offset =
          compare_pitches reference rest time_offset) ∧
      (∀ q ∈ reference,
        |q.timestamp - (user_point.timestamp + time_offset)| < 1 / 20 →
        ∃ t, minAbsDist (user_point.timestamp + time_offset)
            ((buildRefMap reference).map Prod.fst) = some t ∧
          t ∈ reference.map PitchPoint.timestamp ∧
          (∀ p ∈ reference, |t - (user_point.timestamp + time_offset)| ≤
            |p.timestamp - (user_point.timestamp + time_offset)|) ∧
          (∀ p ∈ reference,
            |p.timestamp - (user_point.timestamp + time_offset)| =
              |t - (user_point.timestamp + time_offset)| → t ≤ p.timestamp) ∧
          ∃ v, dictGet (buildRefMap reference) t = some v ∧
            compareOne (buildRefMap reference) time_offset user_point =
              some (some ⟨user_point.timestamp + time_offset, v, user_point.pitch,
                match v, user_point.pitch with
                | some r, some u => if 0 < r then some (|u - r| / r * 100) else none
                | _, _ => none⟩)) := by
  intro reference user_point time_offset hs hne
  have hkeys := buildRefMap_keys (hs.imp (fun h => ne_of_lt h))
  constructor
  · intro hfar
    exact ⟨compareOne_far hs hne hfar,
           fun rest => compare_pitches_drop rest (compareOne_far hs hne hfar)⟩
  · intro q hq hqlt
    cases hmin : minAbsDist (user_point.timestamp + time_offset)
        ((buildRefMap reference).map Prod.fst) with
    | none =>
      rw [hkeys] at hmin
      cases href : reference with
      | nil => exact absurd href hne
      | cons p ps => rw [href] at hmin; simp [minAbsDist] at hmin
    | some t =>
      have htmem : t ∈ reference.map PitchPoint.timestamp := by
        have h2 := minAbsDist_mem hmin
        rwa [hkeys] at h2
      have hminle : ∀ p ∈ reference,
          |t - (user_point.timestamp + time_offset)| ≤
            |p.timestamp - (user_point.timestamp + time_offset)| := by
        intro p hp
        refine minAbsDist_le hmin p.timestamp ?_
        rw [hkeys]
        exact List.mem_map_of_mem PitchPoint.timestamp hp
      have htie : ∀ p ∈ reference,
          |p.timestamp - (user_point.timestamp + time_offset)| =
            |t - (user_point.timestamp + time_offset)| → t ≤ p.timestamp := by
        intro p hp heq
        refine minAbsDist_first ?_ hmin p.timestamp ?_ heq
        · rw [hkeys]; exact hs
        · rw [hkeys]; exact List.mem_map_of_mem PitchPoint.timestamp hp
      have hlt : |t - (user_point.timestamp + time_offset)| < 1 / 20 :=
        lt_of_le_of_lt (hminle q hq) hqlt
      obtain ⟨v, hv, hone⟩ := compareOne_near hmin hlt
      exact ⟨t, rfl, htmem, hminle, htie, v, hv, hone⟩

/-- C2 counterexample: with a single reference sample at timestamp 0 and a
user sample whose adjusted timestamp is 0.05, the adjusted timestamp is
not further than the 0.05 s tolerance from every reference timestamp, yet
the sample is dropped (the code requires a strict distance below 0.05 s),
so the lookup does not match the closest reference sample. -/
theorem nearest_tolerance_boundary_cex :
    |(0 : ℚ) - (1 / 20 + 0)| ≤ 1 / 20 ∧
    compare_pitches [⟨0, some 200⟩] [⟨1/20, some 100⟩] 0 = some [] :=
  ⟨by decide, by decide⟩

theorem nearest_lookup_spec_witness :
    ∃ t, minAbsDist ((⟨0, some 260⟩ : PitchPoint).timestamp + 0)
        ((buildRefMap [⟨0, some 200⟩, ⟨1, some 210⟩]).map Prod.fst) = some t ∧
      t ∈ [(⟨0, some 200⟩ : PitchPoint), ⟨1, some 210⟩].map PitchPoint.timestamp := by
  obtain ⟨t, hmin, htmem, -, -, -, -, -⟩ :=
    (nearest_lookup_spec [⟨0, some 200⟩, ⟨1, some 210⟩] ⟨0, some 260⟩ 0
      (by decide) (by decide)).2 ⟨0, some 200⟩ (by decide) (by decide)
  exact ⟨t, hmin, htmem⟩
